import Mathlib

/-!
Shallow embedding of the contact-reconciliation engine of
`gitSambhal/kc_missing_contacts` (src/index.js, both script variants),
together with theorems checking the natural-language specification
against the code.

Strings are modelled as `List Char` (with `String` wrappers), JavaScript
`Map`s as association lists in insertion order, and JavaScript `Set`s of
contact objects as lists of contacts.
-/

/-- JS regex class `[\d+]` used by `replace(/[^\d+]/g, '')`:
a decimal digit or the plus sign. -/
def isDigitOrPlus (c : Char) : Bool :=
  c.isDigit || c == '+'

/-- JS whitespace class `\s` (ASCII part plus the Unicode space characters
recognised by JS regexes), also used by `String.prototype.trim`. -/
def isJsSpace (c : Char) : Bool :=
  c == ' ' || c == '\t' || c == '\n' || c == '\r' ||
  c.val == 0x0b || c.val == 0x0c || c.val == 0xa0 || c.val == 0x1680 ||
  (0x2000 ≤ c.val && c.val ≤ 0x200a) || c.val == 0x2028 || c.val == 0x2029 ||
  c.val == 0x202f || c.val == 0x205f || c.val == 0x3000 || c.val == 0xfeff

/-- JS regex word class `\w` = `[A-Za-z0-9_]`. -/
def isWordChar (c : Char) : Bool :=
  c.isAlpha || c.isDigit || c == '_'

/-- Embeds `s.startsWith(p)` on character lists: `startsWithL s p` is true when
`p` is an initial segment of `s`. -/
def startsWithL : List Char → List Char → Bool
  | _, [] => true
  | [], _ :: _ => false
  | c :: s, d :: p => c == d && startsWithL s p

/-- Embeds `s.endsWith(p)` on character lists. -/
def endsWithL (s p : List Char) : Bool :=
  startsWithL s.reverse p.reverse

/-- Embeds `s.includes(sub)` on character lists: some position of `s` starts
with `sub` (the empty string is included everywhere, as in JS). -/
def includesL : List Char → List Char → Bool
  | s, sub =>
    match s with
    | [] => startsWithL [] sub
    | c :: rest => startsWithL (c :: rest) sub || includesL rest sub

/-- Embeds `s.slice(-n)`: the last `n` characters (the whole string when it is
shorter than `n`). -/
def sliceLastL (n : Nat) (l : List Char) : List Char :=
  l.drop (l.length - n)

/-- Embeds `s.toLowerCase()` restricted to ASCII case mapping (all strings this
program lowercases are ASCII). -/
def jsToLowerL (l : List Char) : List Char :=
  l.map Char.toLower

/-- Embeds `Number(s)` for the strings this program builds (digits and `+`
characters): empty string is 0, an optional single leading `+` followed by
at least one digit parses as a decimal natural, anything else is NaN
(`none`).  NaN compares false against every number. -/
def jsNumber (l : List Char) : Option Nat :=
  match l with
  | [] => some 0
  | '+' :: rest =>
    if rest ≠ [] && rest.all Char.isDigit then
      some (rest.foldl (fun a c => a * 10 + (c.toNat - 48)) 0)
    else none
  | _ =>
    if l.all Char.isDigit then
      some (l.foldl (fun a c => a * 10 + (c.toNat - 48)) 0)
    else none

/-- Embeds `Number(phone) > 6_000_000_000` (false on NaN). -/
def jsNumberGtSixBillion (l : List Char) : Bool :=
  match jsNumber l with
  | none => false
  | some n => decide (n > 6000000000)

/-! ### Association lists standing for JS `Map`s (insertion order kept). -/

/-- Embeds `map.get(k)` on an association list. -/
def alistGet {α : Type} (m : List (String × α)) (k : String) : Option α :=
  match m with
  | [] => none
  | (k', v) :: rest => if k' = k then some v else alistGet rest k

/-- Embeds `map.has(k)`. -/
def alistHas {α : Type} (m : List (String × α)) (k : String) : Bool :=
  (alistGet m k).isSome

/-- Embeds `map.set(k, v)`: updates the first binding of `k` in place, appends a
new binding otherwise (JS `Map` keeps the original insertion position on
overwrite). -/
def alistSet {α : Type} (m : List (String × α)) (k : String) (v : α) :
    List (String × α) :=
  match m with
  | [] => [(k, v)]
  | (k', v') :: rest =>
    if k' = k then (k', v) :: rest else (k', v') :: alistSet rest k v

/-! ### Phone canonicalizers

The repository has two canonicalizers: `toPhoneNumber` (first script
variant, src/index.js lines 158-190, also exposed there as
`standardizePhoneNumber`) and `standardizePhoneNumber` (second variant,
lines 846-880, the algorithm of spec §4.1). -/

/-- One pass of the JS loop
`prefixToRemove.forEach(p => { if (s.startsWith(p)) s = s.replace(p, ''); })`.
Under the `startsWith` guard, `replace(p, '')` removes the leading
occurrence of `p`, i.e. drops `p.length` characters. -/
def stripCandidates (cands : List (List Char)) (l : List Char) : List Char :=
  cands.foldl (fun s p => if startsWithL s p then s.drop p.length else s) l

/-- The `prefixToRemove` list of `toPhoneNumber` (src/index.js line 161). -/
def toPhoneCandsToRemove : List (List Char) :=
  [['0'], ['9', '1'], ['+', '9', '1'], ['0', '9', '1'], ['0', '0', '9', '1']]

/-- The conditional stripping stage of `toPhoneNumber` (lines 165-171):
the candidate loop runs only when the cleaned value is longer than 10. -/
def toPhoneStripStage (t0 : List Char) : List Char :=
  if t0.length > 10 then stripCandidates toPhoneCandsToRemove t0 else t0

/-- Embeds `invalidPrefix.includes(String(toPhone[0]))` (lines 162, 186). -/
def toPhoneInvalidFirst (t1 : List Char) : Bool :=
  match t1 with
  | c :: _ => (['1', '2', '3', '4', '5'] : List Char).contains c
  | [] => false

/-- The validation stage of `toPhoneNumber` (lines 174-189): reject
lengths 11-12 and >14 without a leading `+`, then require a non-empty
value of length >9 whose first character is not 1-5. -/
def toPhoneChecks (t1 : List Char) : List Char :=
  if t1.length > 10 && t1.length < 13 && !(startsWithL t1 ['+']) then []
  else if t1.length > 14 && !(startsWithL t1 ['+']) then []
  else if !(t1.isEmpty) && t1.length > 9 && !(toPhoneInvalidFirst t1) then t1
  else []

/-- Embeds `toPhoneNumber` from src/index.js lines 158-190 (first variant), on
character lists.  The `typeof value !== 'string'` guard is outside the
embedding (inputs are strings). -/
def toPhoneNumberL (l : List Char) : List Char :=
  toPhoneChecks (toPhoneStripStage (l.filter isDigitOrPlus))

/-- Embeds `toPhoneNumber` on strings. -/
def toPhoneNumber (s : String) : String :=
  ⟨toPhoneNumberL s.data⟩

/-- Anchored attempt of the JS regex `/(?:\+?\d{10,12})/` at the start of
`l`: an optional `+` followed by 10 to 12 digits, the digit count greedy.
When `l` starts with `+` but fewer than 10 digits follow, the
backtracked alternative (no `+`) also fails because `+` is not a digit. -/
def matchPhoneAt (l : List Char) : Option (List Char) :=
  match l with
  | '+' :: rest =>
    if ((rest.takeWhile Char.isDigit).take 12).length ≥ 10 then
      some ('+' :: (rest.takeWhile Char.isDigit).take 12)
    else none
  | _ =>
    if ((l.takeWhile Char.isDigit).take 12).length ≥ 10 then
      some ((l.takeWhile Char.isDigit).take 12)
    else none

/-- Embeds `s.match(/(?:\+?\d{10,12})/)`: the leftmost successful anchored
attempt. -/
def matchFirstPhone : List Char → Option (List Char)
  | [] => none
  | c :: rest =>
    match matchPhoneAt (c :: rest) with
    | some m => some m
    | none => matchFirstPhone rest

/-- The `prefixToRemove` list of `standardizePhoneNumber`
(src/index.js line 868). -/
def phoneStripCandidates : List (List Char) :=
  [['9', '1'], ['0'], ['0', '0'], ['+', '9', '1'], ['0', '9', '1']]

/-- The conditional stripping stage of `standardizePhoneNumber`
(lines 867-874): the candidate loop runs only when the cleaned value is
longer than 10. -/
def phoneStripStage (clean : List Char) : List Char :=
  if clean.length > 10 then stripCandidates phoneStripCandidates clean
  else clean

/-- Embeds `standardizePhoneNumber` from src/index.js lines 846-880 (second
variant; the spec §4.1 algorithm), on character lists.  The
`if (!phone) return ''` and array guards are handled in the string
wrapper; `match ? match[0] : ''` is `Option.getD`. -/
def standardizePhoneNumberL (l : List Char) : List Char :=
  if (l.filter isDigitOrPlus).length > 15 then
    (matchFirstPhone (l.filter isDigitOrPlus)).getD []
  else if (phoneStripStage (l.filter isDigitOrPlus)).length < 10 then []
  else phoneStripStage (l.filter isDigitOrPlus)

/-- Embeds `standardizePhoneNumber` on strings (`if (!phone) return ''` is the
empty-string case; array inputs are outside the embedding). -/
def standardizePhoneNumber (s : String) : String :=
  if s = "" then "" else ⟨standardizePhoneNumberL s.data⟩

/-! ### Name normalizer (`cleanupName`, src/index.js lines 441-459) -/

/-- Character class kept by
`replace(/[^ऀ-ॿ؀-ۿ\w\s\+\/\(\)\[\]]/g, '')`:
Devanagari, Arabic script, word characters, whitespace, and the symbols
`+ / ( ) [ ]`. -/
def isAllowedNameChar (c : Char) : Bool :=
  (0x900 ≤ c.val && c.val ≤ 0x97F) || (0x600 ≤ c.val && c.val ≤ 0x6FF) ||
  isWordChar c || isJsSpace c ||
  c == '+' || c == '/' || c == '(' || c == ')' || c == '[' || c == ']'

/-- Drop the longest suffix satisfying `p`. -/
def dropEndWhile (p : Char → Bool) (l : List Char) : List Char :=
  (l.reverse.dropWhile p).reverse

/-- Embeds `s.trim()`. -/
def trimL (l : List Char) : List Char :=
  dropEndWhile isJsSpace (l.dropWhile isJsSpace)

/-- Embeds `replace(/\s+/g, ' ')`: each maximal run of whitespace becomes one
space.  `inRun` records that the current run already emitted its space. -/
def collapseSpacesAux : Bool → List Char → List Char
  | _, [] => []
  | false, c :: rest =>
    if isJsSpace c then ' ' :: collapseSpacesAux true rest
    else c :: collapseSpacesAux false rest
  | true, c :: rest =>
    if isJsSpace c then collapseSpacesAux true rest
    else c :: collapseSpacesAux false rest

/-- Embeds `replace(/\s+/g, ' ')`. -/
def collapseSpaces (l : List Char) : List Char :=
  collapseSpacesAux false l

/-- Embeds `replace(/^\/+|\/+$/g, '')`: remove the leading and the trailing run
of slashes. -/
def stripEdgeSlashes (l : List Char) : List Char :=
  dropEndWhile (· == '/') (l.dropWhile (· == '/'))

/-- Embeds `cleanupName` from src/index.js lines 441-459 on character lists. -/
def cleanupNameL (l : List Char) : List Char :=
  trimL (stripEdgeSlashes (collapseSpaces ((trimL l).filter isAllowedNameChar)))

/-- Embeds `cleanupName` on strings. -/
def cleanupName (s : String) : String :=
  ⟨cleanupNameL s.data⟩

/-! ### Identities and the reconciliation stores -/

/-- An extracted `{phone, name}` identity. -/
structure Contact where
  phone : String
  name : String
deriving DecidableEq, Repr

/-- Embeds `addToDuplicateMap` (src/index.js lines 192-201): lowercase the key,
then set the count to 1 or increment it. -/
def addToDuplicateMap (m : List (String × Nat)) (key : String) :
    List (String × Nat) :=
  let k : String := ⟨jsToLowerL key.data⟩
  match alistGet m k with
  | none => alistSet m k 1
  | some n => alistSet m k (n + 1)

/-- The blocked-keyword list `filterKeywords` (src/index.js line 47). -/
def filterKeywords : List String := ["spam", "All Bank Balance Enquiry No"]

/-- Embeds `blockedPhonePrefixes` (src/index.js line 30). -/
def blockedPhoneStarts : List String := ["94544"]

/-- Embeds `blockedPhoneSuffixes` (src/index.js line 33). -/
def blockedPhoneEnds : List String := ["000000"]

/-- The name-resolution steps of `addToCompareContacts` (src/index.js
lines 226-241): default an empty name to the phone, then replace a name
that contains the phone, starts with a generic placeholder word, or is
the literal `"0"`, by `"KAS " + last-5-digits`. -/
def resolveCompareName (phone name : String) : String :=
  let name1 := if name = "" then phone else name
  let replaceNamesStartingWith : List String := ["name", "caller"]
  if includesL name1.data phone.data ||
      replaceNamesStartingWith.any
        (fun w => startsWithL (jsToLowerL name1.data) w.data) ||
      name1 = "0" then
    ⟨"KAS ".data ++ sliceLastL 5 phone.data⟩
  else name1

/-- The `conditions` array of `addToCompareContacts` (src/index.js lines
244-250), conjoined as by `conditions.every(...)`.  `contact'` is the
contact after name resolution. -/
def compareAdmissible (store : List (String × Contact)) (phone : String)
    (contact' : Contact) : Bool :=
  let cName : String := ⟨jsToLowerL contact'.name.data⟩
  (!(alistHas store phone) || decide (phone ≠ contact'.name)) &&
  !(filterKeywords.any
      (fun kw => includesL cName.data (jsToLowerL kw.data))) &&
  jsNumberGtSixBillion phone.data &&
  !(blockedPhoneStarts.any (fun p => startsWithL phone.data p.data)) &&
  !(blockedPhoneEnds.any (fun p => endsWithL phone.data p.data))

/-- Embeds `addToCompareContacts` (src/index.js lines 220-256): increment the
duplicate-frequency map for `contact.phone` first, resolve the name,
then insert only when all conditions hold.  Returns the updated
`(compareContacts, duplicateCompareContacts)` pair. -/
def addToCompareContacts (store : List (String × Contact))
    (freq : List (String × Nat)) (phone : String) (contact : Contact) :
    List (String × Contact) × List (String × Nat) :=
  let freq' := addToDuplicateMap freq contact.phone
  let contact' := { contact with name := resolveCompareName phone contact.name }
  if compareAdmissible store phone contact' then
    (alistSet store phone contact', freq')
  else (store, freq')

/-! ### Missing-set computation (src/index.js lines 580-598) -/

/-- Embeds `missingContacts.has(stringKey)` where `missingContacts` is a JS `Set`
of contact objects: SameValueZero never equates a string with an object,
so the test is false for every string. -/
def missingHasString (_missing : List (String × Contact)) (_s : String) :
    Bool :=
  false

/-- One iteration of the missing-set loop: `cleanPhone` is the last 10
characters of the re-canonicalized phone, and the entry is missing when
neither the full phone nor `cleanPhone` is a master key (the set-member
tests on strings are always false).  Missing entries are appended and
their name counted in `duplicateNamesMap`. -/
def missingStep (master : List (String × Contact))
    (st : List (String × Contact) × List (String × Nat))
    (pc : String × Contact) :
    List (String × Contact) × List (String × Nat) :=
  let (missingAcc, namesMap) := st
  let phone := pc.1
  let cleanPhone : String := ⟨sliceLastL 10 (toPhoneNumber phone).data⟩
  let isMissing1 := !(alistHas master phone) &&
    !(missingHasString missingAcc phone)
  let isMissing2 := !(alistHas master cleanPhone) &&
    !(missingHasString missingAcc cleanPhone)
  if isMissing1 && isMissing2 then
    (missingAcc ++ [pc], addToDuplicateMap namesMap pc.2.name)
  else (missingAcc, namesMap)

/-- The missing-set computation: fold the loop over the comparison store
in insertion order, starting from an empty set and an empty
`duplicateNamesMap`.  Missing contacts are tracked together with their
comparison-store key (each stored contact object sits under exactly one
key). -/
def computeMissing (master compare : List (String × Contact)) :
    List (String × Contact) × List (String × Nat) :=
  compare.foldl (missingStep master) ([], [])

/-! ### Name-uniqueness post-pass (src/index.js lines 614-639) -/

/-- The uniqueness loop over the sorted missing list: when the policy is
on and the lowercased name's total count exceeds one, the counter is
incremented if the lowercased name matches `prevName`, else reset to 1
with `prevName` remembering this contact's original name, and the
contact is renamed in place to `"<name> (<k>)"`. -/
def uniqNames (makeNameUnique : Bool) (namesMap : List (String × Nat)) :
    Nat → String → List (String × Contact) → List (String × Contact)
  | _, _, [] => []
  | nameCount, prevName, (p, c) :: rest =>
    if makeNameUnique = true ∧
        1 < (alistGet namesMap ⟨jsToLowerL c.name.data⟩).getD 0 then
      let k := if jsToLowerL c.name.data = jsToLowerL prevName.data then
          nameCount + 1 else 1
      let prev' := if jsToLowerL c.name.data = jsToLowerL prevName.data then
          prevName else c.name
      (p, { c with name := c.name ++ " (" ++ toString k ++ ")" }) ::
        uniqNames makeNameUnique namesMap k prev' rest
    else
      (p, c) :: uniqNames makeNameUnique namesMap nameCount prevName rest

/-- Effect of the in-place renames on the comparison store: every store
entry whose contact was renamed (missing entries are the store's own
objects, looked up here by their key) now shows the renamed contact. -/
def applyRenames (store ren : List (String × Contact)) :
    List (String × Contact) :=
  store.map (fun pc =>
    match alistGet ren pc.1 with
    | some c => (pc.1, c)
    | none => pc)

/-! ### Master-side VCF extraction (src/index.js lines 320-359, 376-439,
485-499) -/

/-- Embeds `readVcfFileStream` phone handling: each `tel` value is standardized
and only cards with a non-empty standardized phone are yielded, one card
per tel value, carrying that single standardized tel (the first variant's
`standardizePhoneNumber` is `toPhoneNumber`). -/
def readVcfStandardize (tels : List String) : List String :=
  (tels.map toPhoneNumber).filter (· ≠ "")

/-- Embeds `createContactKey` on a VCF card followed by the master ingestion of
its contacts: for each surviving tel the VCF branch standardizes again
and pushes the phone unconditionally (no emptiness check, unlike the
CSV branch), and `process` does `masterContacts.set(c.phone, c)` for
each. -/
def vcfExtractIdentities (tels : List String) (fn : String) : List Contact :=
  (readVcfStandardize tels).map
    (fun t => { phone := toPhoneNumber t, name := cleanupName fn })

/-- Master ingestion of one VCF card (src/index.js lines 491-498). -/
def ingestMasterVcfCard (store : List (String × Contact))
    (tels : List String) (fn : String) : List (String × Contact) :=
  (vcfExtractIdentities tels fn).foldl (fun s c => alistSet s c.phone c) store

/-! ## Spec-side reference definitions (from the claims' wording) -/

/-- Modelled from the claim's words in C3: the pattern `^\+?\d+$` — an
optional leading plus followed by one or more digits and nothing else. -/
def claimPhonePattern (s : String) : Bool :=
  match s.data with
  | '+' :: rest => !(rest.isEmpty) && rest.all Char.isDigit
  | l => !(l.isEmpty) && l.all Char.isDigit

/-- Modelled from the claim's words in C4: strip only the FIRST matching
candidate from the ordered list and perform no further substitution on
the result. -/
def stripFirstMatchOnly (cs : List (List Char)) (l : List Char) : List Char :=
  match cs with
  | [] => l
  | p :: rest =>
    if startsWithL l p then l.drop p.length else stripFirstMatchOnly rest l

/-- The effective missing test of the loop body (src/index.js lines
588-592): the master store has neither the full phone key nor the
last-10-characters-of-the-recanonicalized-phone key.  (The
`missingContacts.has` subterms of the source are identically false, see
`missingHasString`.) -/
def missingCond (master : List (String × Contact)) (pc : String × Contact) :
    Bool :=
  !(alistHas master pc.1) &&
  !(alistHas master ⟨sliceLastL 10 (toPhoneNumber pc.1).data⟩)

/-- Head test for a character predicate (false on the empty list). -/
def headIs (p : Char → Bool) (l : List Char) : Bool :=
  match l with
  | [] => false
  | c :: _ => p c

/-- Normal-form whitespace: every whitespace character is a plain space
and no two whitespace characters are adjacent (the shape
`replace(/\s+/g, ' ')` produces). -/
def spacesOk : List Char → Bool
  | [] => true
  | c :: rest =>
    (!(isJsSpace c) || (c == ' ' && !(headIs isJsSpace rest))) && spacesOk rest

/-- Grouping predicate: `groupedOk keys` holds when equal keys are adjacent: once a run of
some key ends, that key never occurs again.  This encodes the
"name-sorted" hypothesis of C7 (equal lowercased names adjacent). -/
def groupedOk : List (List Char) → Bool
  | [] => true
  | a :: rest => !((rest.dropWhile (· == a)).contains a) && groupedOk rest

/-- Modelled from the claim's words in C7: walk the sorted list keeping a
counter `k` that restarts at 1 on each new lowercased name and
increments while the lowercased name equals the immediately preceding
entry; every entry whose lowercased name has total occurrence count
greater than one is renamed to `"<name> (<k>)"`. -/
def specRename (namesMap : List (String × Nat)) :
    Nat → String → List (String × Contact) → List (String × Contact)
  | _, _, [] => []
  | k, prevEntry, (p, c) :: rest =>
    (if 1 < (alistGet namesMap ⟨jsToLowerL c.name.data⟩).getD 0 then
      (p, { c with
              name := c.name ++ " (" ++
                toString
                  (if jsToLowerL c.name.data = jsToLowerL prevEntry.data then
                    k + 1
                  else 1) ++ ")" })
    else (p, c)) ::
      specRename namesMap
        (if jsToLowerL c.name.data = jsToLowerL prevEntry.data then k + 1
         else 1)
        c.name rest

/-! ## Supporting lemmas: canonicalizer output shape -/

theorem all_of_sublist {p : Char → Bool} {l₁ l₂ : List Char}
    (h : List.Sublist l₁ l₂) (h₂ : l₂.all p = true) : l₁.all p = true := by
  simp only [List.all_eq_true] at h₂ ⊢
  exact fun c hc => h₂ c (h.subset hc)

theorem filter_all (p : Char → Bool) (l : List Char) :
    (l.filter p).all p = true := by
  simp only [List.all_eq_true]
  exact fun c hc => (List.mem_filter.mp hc).2

theorem takeWhile_all (p : Char → Bool) (l : List Char) :
    (l.takeWhile p).all p = true := by
  induction l with
  | nil => rfl
  | cons c rest ih =>
    rw [List.takeWhile_cons]
    by_cases h : p c = true
    · simp [h, ih]
    · simp [h]

theorem all_digit_imp_digitOrPlus {l : List Char}
    (h : l.all Char.isDigit = true) : l.all isDigitOrPlus = true := by
  simp only [List.all_eq_true] at h ⊢
  intro c hc
  simp [isDigitOrPlus, h c hc]

theorem stripCandidates_suffix (cs : List (List Char)) (l : List Char) :
    stripCandidates cs l <:+ l := by
  induction cs generalizing l with
  | nil => exact List.suffix_refl l
  | cons p rest ih =>
    have hstep : (if startsWithL l p = true then l.drop p.length else l) <:+ l := by
      by_cases h : startsWithL l p = true
      · rw [if_pos h]; exact List.drop_suffix _ _
      · rw [if_neg h]
    have hrw : stripCandidates (p :: rest) l =
        stripCandidates rest (if startsWithL l p = true then l.drop p.length else l) := rfl
    rw [hrw]
    exact (ih _).trans hstep

theorem phoneStripStage_suffix (clean : List Char) :
    phoneStripStage clean <:+ clean := by
  unfold phoneStripStage
  by_cases h : clean.length > 10
  · rw [if_pos h]; exact stripCandidates_suffix _ _
  · rw [if_neg h]

theorem toPhoneStripStage_suffix (t0 : List Char) :
    toPhoneStripStage t0 <:+ t0 := by
  unfold toPhoneStripStage
  by_cases h : t0.length > 10
  · rw [if_pos h]; exact stripCandidates_suffix _ _
  · rw [if_neg h]

theorem matchPhoneAt_spec {l m : List Char} (h : matchPhoneAt l = some m) :
    10 ≤ m.length ∧ m.length ≤ 13 ∧ m.all isDigitOrPlus = true := by
  have hds : ∀ x : List Char,
      ((x.takeWhile Char.isDigit).take 12).all isDigitOrPlus = true :=
    fun x => all_digit_imp_digitOrPlus
      (all_of_sublist (List.take_sublist _ _) (takeWhile_all _ _))
  have hlen : ∀ x : List Char,
      ((x.takeWhile Char.isDigit).take 12).length ≤ 12 := by
    intro x
    rw [List.length_take]
    omega
  unfold matchPhoneAt at h
  split at h
  next rest =>
    split at h
    next hge =>
      cases h
      refine ⟨?_, ?_, ?_⟩
      · simp only [List.length_cons]
        omega
      · have := hlen rest
        simp only [List.length_cons]
        omega
      · simp only [List.all_cons, Bool.and_eq_true]
        exact ⟨by decide, hds rest⟩
    next => cases h
  next =>
    split at h
    next hge =>
      cases h
      exact ⟨hge, le_trans (hlen _) (by omega), hds _⟩
    next => cases h

theorem matchFirstPhone_spec : ∀ {l m : List Char},
    matchFirstPhone l = some m →
    10 ≤ m.length ∧ m.length ≤ 13 ∧ m.all isDigitOrPlus = true := by
  intro l
  induction l with
  | nil => intro m h; cases h
  | cons c rest ih =>
    intro m h
    unfold matchFirstPhone at h
    split at h
    next heq => cases h; exact matchPhoneAt_spec heq
    next => exact ih h

theorem standardizePhoneNumberL_spec {l : List Char}
    (h : standardizePhoneNumberL l ≠ []) :
    10 ≤ (standardizePhoneNumberL l).length ∧
    (standardizePhoneNumberL l).length ≤ 15 ∧
    (standardizePhoneNumberL l).all isDigitOrPlus = true := by
  unfold standardizePhoneNumberL at h ⊢
  by_cases h15 : (l.filter isDigitOrPlus).length > 15
  · rw [if_pos h15] at h ⊢
    cases hm : matchFirstPhone (l.filter isDigitOrPlus) with
    | none => simp [hm] at h
    | some m =>
      simp only [Option.getD_some]
      obtain ⟨h1, h2, h3⟩ := matchFirstPhone_spec hm
      exact ⟨h1, le_trans h2 (by omega), h3⟩
  · rw [if_neg h15] at h ⊢
    by_cases h10 : (phoneStripStage (l.filter isDigitOrPlus)).length < 10
    · rw [if_pos h10] at h; exact absurd rfl h
    · rw [if_neg h10] at h ⊢
      refine ⟨Nat.le_of_not_lt h10, ?_, ?_⟩
      · have hs := (phoneStripStage_suffix (l.filter isDigitOrPlus)).length_le
        omega
      · exact all_of_sublist (phoneStripStage_suffix _).sublist (filter_all _ _)

theorem string_mk_data (s : String) : String.mk s.data = s := rfl

theorem standardizePhoneNumber_eq (s : String) (h : s ≠ "") :
    standardizePhoneNumber s = ⟨standardizePhoneNumberL s.data⟩ := by
  unfold standardizePhoneNumber
  rw [if_neg h]

theorem standardizePhoneNumber_data (s : String) (h : s ≠ "") :
    (standardizePhoneNumber s).data = standardizePhoneNumberL s.data := by
  rw [standardizePhoneNumber_eq s h]

theorem toPhoneNumberL_all (l : List Char) :
    (toPhoneNumberL l).all isDigitOrPlus = true := by
  unfold toPhoneNumberL toPhoneChecks
  split
  · rfl
  · split
    · rfl
    · split
      · exact all_of_sublist (toPhoneStripStage_suffix _).sublist
          (filter_all _ _)
      · rfl

/-! ## C2: canonicalization idempotence -/

/-- C2 counterexample: canonicalization is NOT idempotent on successful
outputs.  `standardizePhoneNumber "0912345678901" = "912345678901"`
(the `0` candidate fires), but canonicalizing again strips `91` and
yields `"2345678901"`.  The first variant's canonicalizer
`toPhoneNumber` also fails: `toPhoneNumber "00012345678901" =
"0012345678901"` succeeds while re-canonicalizing rejects to `""`. -/
theorem c2_counterexample :
    (standardizePhoneNumber "0912345678901" ≠ "" ∧
      standardizePhoneNumber (standardizePhoneNumber "0912345678901") ≠
        standardizePhoneNumber "0912345678901") ∧
    (toPhoneNumber "00012345678901" ≠ "" ∧
      toPhoneNumber (toPhoneNumber "00012345678901") ≠
        toPhoneNumber "00012345678901") := by
  refine ⟨⟨by decide, by decide⟩, by decide, by decide⟩

/-- C2 amended: canonicalization is idempotent on every input whose
canonical output has length exactly 10 (longer outputs can start with a
strip candidate and be stripped again, as the counterexample shows). -/
theorem c2_idempotent_on_length10 (s : String)
    (h : standardizePhoneNumber s ≠ "")
    (h10 : (standardizePhoneNumber s).length = 10) :
    standardizePhoneNumber (standardizePhoneNumber s) =
      standardizePhoneNumber s := by
  have hs : s ≠ "" := by
    intro he
    apply h
    rw [he]
    rfl
  have hdata : (standardizePhoneNumber s).data = standardizePhoneNumberL s.data :=
    standardizePhoneNumber_data s hs
  have hne : standardizePhoneNumberL s.data ≠ [] := by
    intro he
    apply h
    have : (standardizePhoneNumber s).data = [] := by rw [hdata, he]
    calc standardizePhoneNumber s = ⟨(standardizePhoneNumber s).data⟩ :=
          (string_mk_data _).symm
      _ = ⟨[]⟩ := by rw [this]
  obtain ⟨-, -, hall⟩ := standardizePhoneNumberL_spec hne
  rw [← hdata] at hall
  have hlen10 : (standardizePhoneNumber s).data.length = 10 := h10
  have hfix : (standardizePhoneNumber s).data.filter isDigitOrPlus =
      (standardizePhoneNumber s).data :=
    List.filter_eq_self.mpr (by simpa [List.all_eq_true] using hall)
  have hstage : phoneStripStage (standardizePhoneNumber s).data =
      (standardizePhoneNumber s).data := by
    unfold phoneStripStage
    rw [hlen10]
    norm_num
  have key : standardizePhoneNumberL (standardizePhoneNumber s).data =
      (standardizePhoneNumber s).data := by
    unfold standardizePhoneNumberL
    rw [hfix, hstage, hlen10]
    norm_num
  calc standardizePhoneNumber (standardizePhoneNumber s)
      = ⟨standardizePhoneNumberL (standardizePhoneNumber s).data⟩ :=
        standardizePhoneNumber_eq _ h
    _ = ⟨(standardizePhoneNumber s).data⟩ := by rw [key]
    _ = standardizePhoneNumber s := string_mk_data _

/-- C2 witness: `"9876543210"` canonicalizes to itself (length 10), and
the amended idempotence theorem applies to it. -/
theorem c2_witness :
    standardizePhoneNumber "9876543210" ≠ "" ∧
    (standardizePhoneNumber "9876543210").length = 10 ∧
    standardizePhoneNumber (standardizePhoneNumber "9876543210") =
      standardizePhoneNumber "9876543210" :=
  ⟨by decide, by decide,
    c2_idempotent_on_length10 "9876543210" (by decide) (by decide)⟩

/-! ## C3: length invariant and character-set of canonical phones -/

/-- C3 counterexample: the `^\+?\d+$` format part fails — the cleaning
step keeps EVERY `+`, not only a leading one, so
`standardizePhoneNumber "1234567890+" = "1234567890+"` with a trailing
plus.  For the first variant's `toPhoneNumber` even the length bound
fails: a `+`-prefixed input of 21 characters is returned whole. -/
theorem c3_counterexample :
    (standardizePhoneNumber "1234567890+" ≠ "" ∧
      claimPhonePattern (standardizePhoneNumber "1234567890+") = false) ∧
    (toPhoneNumber "+88888888888888888888" ≠ "" ∧
      (toPhoneNumber "+88888888888888888888").length = 21) := by
  refine ⟨⟨by decide, by decide⟩, by decide, by decide⟩

/-- C3 amended: every non-rejected output of `standardizePhoneNumber`
has length in [10,15] and consists only of digits and `+` characters
(the `+` may sit at any position, not only the front). -/
theorem c3_length_and_charset (s : String)
    (h : standardizePhoneNumber s ≠ "") :
    10 ≤ (standardizePhoneNumber s).length ∧
    (standardizePhoneNumber s).length ≤ 15 ∧
    (standardizePhoneNumber s).data.all isDigitOrPlus = true := by
  have hs : s ≠ "" := by
    intro he
    apply h
    rw [he]
    rfl
  have hdata : (standardizePhoneNumber s).data = standardizePhoneNumberL s.data :=
    standardizePhoneNumber_data s hs
  have hne : standardizePhoneNumberL s.data ≠ [] := by
    intro he
    apply h
    calc standardizePhoneNumber s = ⟨(standardizePhoneNumber s).data⟩ :=
          (string_mk_data _).symm
      _ = ⟨[]⟩ := by rw [hdata, he]
  obtain ⟨h1, h2, h3⟩ := standardizePhoneNumberL_spec hne
  have hlen : (standardizePhoneNumber s).length =
      (standardizePhoneNumberL s.data).length := by
    show (standardizePhoneNumber s).data.length = _
    rw [hdata]
  rw [hlen, hdata]
  exact ⟨h1, h2, h3⟩

/-- C3 witness: the amended theorem applied to `"9876543210"`. -/
theorem c3_witness :
    standardizePhoneNumber "9876543210" ≠ "" ∧
    (10 ≤ (standardizePhoneNumber "9876543210").length ∧
      (standardizePhoneNumber "9876543210").length ≤ 15 ∧
      (standardizePhoneNumber "9876543210").data.all isDigitOrPlus = true) :=
  ⟨by decide, c3_length_and_charset "9876543210" (by decide)⟩

/-! ## C4: prefix-stripping policy -/

/-- C4 counterexample: the strip loop does NOT stop after the first
matching candidate.  On the cleaned 13-character value
`"9101234567890"` the claim's first-match-only semantics yields
`"01234567890"`, while the code strips `"91"` and then also `"0"`,
yielding `"1234567890"`. -/
theorem c4_counterexample :
    stripCandidates phoneStripCandidates "9101234567890".data ≠
      stripFirstMatchOnly phoneStripCandidates "9101234567890".data ∧
    standardizePhoneNumber "9101234567890" = "1234567890" ∧
    stripFirstMatchOnly phoneStripCandidates "9101234567890".data =
      "01234567890".data := by
  refine ⟨by decide, by decide, by decide⟩

/-- C4 amended: the loop tests every candidate in the given order
against the current (possibly already-stripped) value, so several
candidates can be stripped in one canonicalization (e.g. `"91"` and
then `"0"` on `"9101234567890"`); each strip removes a leading run, so
the loop's result is always a suffix of the cleaned input. -/
theorem c4_strip_loop_behaviour :
    (∀ l : List Char, stripCandidates phoneStripCandidates l <:+ l) ∧
    stripCandidates phoneStripCandidates "9101234567890".data =
      "1234567890".data ∧
    standardizePhoneNumber "9101234567890" = "1234567890" := by
  exact ⟨fun l => stripCandidates_suffix _ _, by decide, by decide⟩

/-! ## C1: missing-set classification -/

theorem missingStep_eq (master : List (String × Contact))
    (acc : List (String × Contact)) (nm : List (String × Nat))
    (pc : String × Contact) :
    missingStep master (acc, nm) pc =
      if missingCond master pc then
        (acc ++ [pc], addToDuplicateMap nm pc.2.name)
      else (acc, nm) := by
  simp only [missingStep, missingHasString, missingCond, Bool.not_false,
    Bool.and_true]

theorem computeMissing_aux (master : List (String × Contact)) :
    ∀ (compare acc : List (String × Contact)) (nm : List (String × Nat)),
    (List.foldl (missingStep master) (acc, nm) compare).1 =
      acc ++ compare.filter (missingCond master) := by
  intro compare
  induction compare with
  | nil => intro acc nm; simp
  | cons pc rest ih =>
    intro acc nm
    rw [List.foldl_cons, missingStep_eq]
    by_cases hc : missingCond master pc = true
    · rw [if_pos hc, ih, List.filter_cons_of_pos hc, List.append_assoc]
      rfl
    · rw [if_neg hc, ih,
        List.filter_cons_of_neg (by simpa using hc)]

/-- C1 counterexample: with master key `"+919876543210"` and comparison
key `"9876543210"`, the comparison entry IS classified missing (the
claim says it is not): the fallback shortens only the comparison phone,
and `"9876543210"` shortened is itself, which is not a master key. -/
theorem c1_counterexample :
    (computeMissing [("+919876543210", ⟨"+919876543210", "M"⟩)]
        [("9876543210", ⟨"9876543210", "C"⟩)]).1 ≠ [] := by decide

/-- C1 amended: an entry `(phone, contact)` of the comparison store is
classified missing iff the master store contains neither the full
`phone` key nor the key formed by the last 10 characters of the
RE-CANONICALIZED phone (`missingCond`).  Consequently the fallback only
matches a long comparison key against a short master key: with master
`"+919876543210"` and comparison `"9876543210"` the entry IS missing,
while the converse layout (master `"9876543210"`, comparison
`"+919876543210"`) is not. -/
theorem c1_missing_set_characterization :
    (∀ master compare : List (String × Contact),
      (computeMissing master compare).1 =
        compare.filter (missingCond master)) ∧
    (computeMissing [("+919876543210", ⟨"+919876543210", "M"⟩)]
        [("9876543210", ⟨"9876543210", "C"⟩)]).1 =
      [("9876543210", ⟨"9876543210", "C"⟩)] ∧
    (computeMissing [("9876543210", ⟨"9876543210", "M"⟩)]
        [("+919876543210", ⟨"+919876543210", "C"⟩)]).1 = [] := by
  refine ⟨fun master compare => ?_, by decide, by decide⟩
  have h := computeMissing_aux master compare [] []
  simpa [computeMissing] using h

/-! ## Association-list and insertion lemmas -/

theorem alistGet_set_self {α : Type} (m : List (String × α)) (k : String)
    (v : α) : alistGet (alistSet m k v) k = some v := by
  induction m with
  | nil => simp [alistSet, alistGet]
  | cons kv rest ih =>
    obtain ⟨k', v'⟩ := kv
    unfold alistSet
    by_cases hk : k' = k
    · rw [if_pos hk]
      simp [alistGet, hk]
    · rw [if_neg hk]
      simp [alistGet, hk, ih]

theorem mem_alistSet {α : Type} {m : List (String × α)} {k : String} {v : α}
    {pc : String × α} (h : pc ∈ alistSet m k v) : pc ∈ m ∨ pc = (k, v) := by
  induction m with
  | nil => simp [alistSet] at h; simp [h]
  | cons kv rest ih =>
    obtain ⟨k', v'⟩ := kv
    unfold alistSet at h
    by_cases hk : k' = k
    · rw [if_pos hk] at h
      rcases List.mem_cons.mp h with h1 | h1
      · right; rw [h1, hk]
      · left; exact List.mem_cons_of_mem _ h1
    · rw [if_neg hk] at h
      rcases List.mem_cons.mp h with h1 | h1
      · left; rw [h1]; exact List.mem_cons_self _ _
      · rcases ih h1 with h2 | h2
        · left; exact List.mem_cons_of_mem _ h2
        · right; exact h2

theorem addToDuplicateMap_get (m : List (String × Nat)) (key : String) :
    alistGet (addToDuplicateMap m key) ⟨jsToLowerL key.data⟩ =
      some ((alistGet m ⟨jsToLowerL key.data⟩).getD 0 + 1) := by
  unfold addToDuplicateMap
  cases hg : alistGet m (⟨jsToLowerL key.data⟩ : String) with
  | none => simp [hg, alistGet_set_self]
  | some n => simp [hg, alistGet_set_self]

theorem addToCompareContacts_snd (store : List (String × Contact))
    (freq : List (String × Nat)) (phone : String) (contact : Contact) :
    (addToCompareContacts store freq phone contact).2 =
      addToDuplicateMap freq contact.phone := by
  simp only [addToCompareContacts]
  split <;> rfl

/-! ## C6: duplicate-frequency increment is unconditional -/

/-- C6 confirmed: every comparison insertion increments the
duplicate-frequency count of the given phone (lowercased key) by
exactly one, whatever the admissibility outcome; and the spam example
`{phone:"9123456789", name:"spam caller"}` is never inserted into the
identities map while its frequency entry is still incremented. -/
theorem c6_duplicate_frequency :
    (∀ (store : List (String × Contact)) (freq : List (String × Nat))
        (phone : String) (contact : Contact),
      contact.phone = phone →
      alistGet (addToCompareContacts store freq phone contact).2
          ⟨jsToLowerL phone.data⟩ =
        some ((alistGet freq ⟨jsToLowerL phone.data⟩).getD 0 + 1)) ∧
    (∀ (store : List (String × Contact)) (freq : List (String × Nat)),
      (addToCompareContacts store freq "9123456789"
          ⟨"9123456789", "spam caller"⟩).1 = store ∧
      alistGet (addToCompareContacts store freq "9123456789"
          ⟨"9123456789", "spam caller"⟩).2 "9123456789" =
        some ((alistGet freq "9123456789").getD 0 + 1)) := by
  have hlow : (⟨jsToLowerL "9123456789".data⟩ : String) = "9123456789" := by
    decide
  constructor
  · intro store freq phone contact hp
    rw [addToCompareContacts_snd, hp]
    exact addToDuplicateMap_get freq phone
  · intro store freq
    have hres : resolveCompareName "9123456789" "spam caller" =
        "spam caller" := by decide
    have hadm : compareAdmissible store "9123456789"
        ⟨"9123456789", "spam caller"⟩ = false := by
      unfold compareAdmissible
      cases h : alistHas store "9123456789" <;> decide
    have hpair : addToCompareContacts store freq "9123456789"
        ⟨"9123456789", "spam caller"⟩ =
          (store, addToDuplicateMap freq "9123456789") := by
      simp only [addToCompareContacts, hres, hadm]
      simp
    refine ⟨by rw [hpair], ?_⟩
    rw [hpair]
    have h := addToDuplicateMap_get freq "9123456789"
    rwa [hlow] at h

/-! ## C10: resolved name never equals a canonical phone -/

theorem startsWithL_self (l : List Char) : startsWithL l l = true := by
  induction l with
  | nil => rfl
  | cons c rest ih => simp [startsWithL, ih]

theorem includesL_self (l : List Char) : includesL l l = true := by
  cases l with
  | nil => rfl
  | cons c rest => simp [includesL, startsWithL_self]

/-- C10 confirmed: extraction only produces phones made of digits and
`+` (first conjunct); for every such phone the resolved comparison name
differs from the phone (second conjunct); hence the first admissibility
conjunct is always true and admissibility reduces to the keyword,
numeric-floor, prefix and suffix checks (third conjunct). -/
theorem c10_admissibility_reduction :
    (∀ s : String, (toPhoneNumber s).data.all isDigitOrPlus = true) ∧
    (∀ phone name : String, phone.data.all isDigitOrPlus = true →
      resolveCompareName phone name ≠ phone) ∧
    (∀ (store : List (String × Contact)) (phone : String)
        (contact' : Contact), contact'.name ≠ phone →
      compareAdmissible store phone contact' =
        (!(filterKeywords.any (fun kw =>
            includesL (jsToLowerL contact'.name.data) (jsToLowerL kw.data))) &&
          jsNumberGtSixBillion phone.data &&
          !(blockedPhoneStarts.any
            (fun p => startsWithL phone.data p.data)) &&
          !(blockedPhoneEnds.any
            (fun p => endsWithL phone.data p.data)))) := by
  refine ⟨fun s => toPhoneNumberL_all s.data, ?_, ?_⟩
  · intro phone name hall
    have key : ∀ n1 : String,
        (if ((includesL n1.data phone.data ||
              (["name", "caller"].any
                (fun w => startsWithL (jsToLowerL n1.data) w.data))) ||
            decide (n1 = "0")) = true then
          ({ data := "KAS ".data ++ sliceLastL 5 phone.data } : String)
        else n1) ≠ phone := by
      intro n1
      by_cases hc : ((includesL n1.data phone.data ||
          (["name", "caller"].any
            (fun w => startsWithL (jsToLowerL n1.data) w.data))) ||
          decide (n1 = "0")) = true
      · rw [if_pos hc]
        intro he
        have hd : "KAS ".data ++ sliceLastL 5 phone.data = phone.data :=
          congrArg String.data he
        have hmem : 'K' ∈ "KAS ".data ++ sliceLastL 5 phone.data :=
          List.mem_append.mpr (Or.inl (by decide))
        rw [hd] at hmem
        rw [List.all_eq_true] at hall
        exact absurd (hall 'K' hmem) (by decide)
      · rw [if_neg hc]
        intro he
        apply hc
        rw [he]
        simp [includesL_self]
    simp only [resolveCompareName]
    exact key (if name = "" then phone else name)
  · intro store phone c' hne
    have h1 : phone ≠ c'.name := fun h => hne h.symm
    simp only [compareAdmissible]
    rw [decide_eq_true h1]
    simp only [Bool.or_true, Bool.true_and]

/-- C10 witness: the reduction applied at phone `"9123456789"` and name
`"Bob"` on the empty store. -/
theorem c10_witness :
    ("9123456789" : String).data.all isDigitOrPlus = true ∧
    resolveCompareName "9123456789" "Bob" ≠ "9123456789" ∧
    compareAdmissible [] "9123456789" ⟨"9123456789", "Bob"⟩ =
      (!(filterKeywords.any (fun kw =>
          includesL (jsToLowerL ("Bob" : String).data)
            (jsToLowerL kw.data))) &&
        jsNumberGtSixBillion ("9123456789" : String).data &&
        !(blockedPhoneStarts.any
          (fun p => startsWithL ("9123456789" : String).data p.data)) &&
        !(blockedPhoneEnds.any
          (fun p => endsWithL ("9123456789" : String).data p.data))) :=
  ⟨by decide,
    c10_admissibility_reduction.2.1 "9123456789" "Bob" (by decide),
    c10_admissibility_reduction.2.2 [] "9123456789" ⟨"9123456789", "Bob"⟩
      (by decide)⟩

/-! ## C5: non-empty phone invariant -/

/-- C5 counterexample: the VCF master path accepts an empty phone.  A
card whose tel is `"00012345678901"` survives `readVcfFileStream` (it
canonicalizes to `"0012345678901"`), but `createContactKey`
re-canonicalizes that value to `""` and pushes it without the emptiness
check the CSV path has, so the master store receives the key `""` with
an identity whose phone is empty. -/
theorem c5_counterexample :
    (vcfExtractIdentities ["00012345678901"] "Bob").map Contact.phone =
      [""] ∧
    alistGet (ingestMasterVcfCard [] ["00012345678901"] "Bob") "" =
      some ⟨"", "Bob"⟩ := by
  exact ⟨by decide, by decide⟩

/-- C5 amended: the COMPARISON store keeps the non-empty-phone
invariant (the numeric-floor admissibility check rejects the empty
phone), while the master store can receive an empty phone through the
VCF extraction path. -/
theorem c5_compare_store_phone_nonempty :
    ∀ (store : List (String × Contact)) (freq : List (String × Nat))
      (phone : String) (contact : Contact),
    (∀ pc ∈ store, pc.2.phone ≠ "") → contact.phone = phone →
    ∀ pc' ∈ (addToCompareContacts store freq phone contact).1,
      pc'.2.phone ≠ "" := by
  intro store freq phone contact hstore hp pc' hmem
  by_cases hadm : compareAdmissible store phone
      { contact with name := resolveCompareName phone contact.name } = true
  · have hres : (addToCompareContacts store freq phone contact).1 =
        alistSet store phone
          { contact with name := resolveCompareName phone contact.name } := by
      simp only [addToCompareContacts]
      rw [if_pos hadm]
    rw [hres] at hmem
    rcases mem_alistSet hmem with h1 | h1
    · exact hstore pc' h1
    · have hphone : phone ≠ "" := by
        simp only [compareAdmissible, Bool.and_eq_true] at hadm
        have h3 := hadm.1.1.2
        intro he
        rw [he] at h3
        exact absurd h3 (by decide)
      rw [h1]
      simpa [hp] using hphone
  · have hres : (addToCompareContacts store freq phone contact).1 = store := by
      simp only [addToCompareContacts]
      rw [if_neg hadm]
    rw [hres] at hmem
    exact hstore pc' hmem

/-- C5 witness: the comparison invariant applied on a concrete store
and insertion. -/
theorem c5_witness :
    (∀ pc ∈ ([("9000000001", (⟨"9000000001", "A"⟩ : Contact))] :
        List (String × Contact)), pc.2.phone ≠ "") ∧
    (∀ pc' ∈ (addToCompareContacts
        [("9000000001", ⟨"9000000001", "A"⟩)] [] "9123456789"
        ⟨"9123456789", "Bob"⟩).1, pc'.2.phone ≠ "") :=
  ⟨by decide,
    c5_compare_store_phone_nonempty _ _ _ _ (by decide) rfl⟩

/-! ## C8: name-normalizer idempotence -/

theorem headIs_dropWhile (p : Char → Bool) (l : List Char) :
    headIs p (l.dropWhile p) = false := by
  induction l with
  | nil => rfl
  | cons c rest ih =>
    rw [List.dropWhile_cons]
    by_cases h : p c = true
    · rw [if_pos h]; exact ih
    · rw [if_neg h]
      show p c = false
      cases hx : p c
      · rfl
      · exact absurd hx h

theorem headIs_false_of_prefixOf {p : Char → Bool} {l₁ l₂ : List Char}
    (h : l₁ <+: l₂) (h₂ : headIs p l₂ = false) : headIs p l₁ = false := by
  cases l₁ with
  | nil => rfl
  | cons c rest =>
    obtain ⟨t, ht⟩ := h
    rw [← ht] at h₂
    exact h₂

theorem dropEndWhile_prefixOf (p : Char → Bool) (l : List Char) :
    dropEndWhile p l <+: l := by
  have h : List.dropWhile p l.reverse <:+ l.reverse := List.dropWhile_suffix p
  have h2 := Iff.mpr List.reverse_prefix h
  rw [List.reverse_reverse] at h2
  exact h2

theorem trimL_sublist (l : List Char) : List.Sublist (trimL l) l :=
  ((dropEndWhile_prefixOf _ _).sublist).trans (List.dropWhile_sublist _)

theorem stripEdgeSlashes_sublist (l : List Char) :
    List.Sublist (stripEdgeSlashes l) l :=
  ((dropEndWhile_prefixOf _ _).sublist).trans (List.dropWhile_sublist _)

theorem trimL_headIs (l : List Char) :
    headIs isJsSpace (trimL l) = false :=
  headIs_false_of_prefixOf (dropEndWhile_prefixOf _ _) (headIs_dropWhile _ _)

theorem trimL_revHeadIs (l : List Char) :
    headIs isJsSpace (trimL l).reverse = false := by
  unfold trimL dropEndWhile
  rw [List.reverse_reverse]
  exact headIs_dropWhile _ _

theorem dropWhile_eq_self_of_headIs {p : Char → Bool} {l : List Char}
    (h : headIs p l = false) : l.dropWhile p = l := by
  cases l with
  | nil => rfl
  | cons c rest =>
    rw [List.dropWhile_cons, if_neg]
    intro hc
    rw [show headIs p (c :: rest) = p c from rfl, hc] at h
    cases h

theorem dropEndWhile_eq_self {p : Char → Bool} {l : List Char}
    (h : headIs p l.reverse = false) : dropEndWhile p l = l := by
  unfold dropEndWhile
  rw [dropWhile_eq_self_of_headIs h, List.reverse_reverse]

theorem trimL_eq_self {l : List Char} (h1 : headIs isJsSpace l = false)
    (h2 : headIs isJsSpace l.reverse = false) : trimL l = l := by
  unfold trimL
  rw [dropWhile_eq_self_of_headIs h1, dropEndWhile_eq_self h2]

theorem stripEdgeSlashes_eq_self {l : List Char}
    (h1 : headIs (· == '/') l = false)
    (h2 : headIs (· == '/') l.reverse = false) : stripEdgeSlashes l = l := by
  unfold stripEdgeSlashes
  rw [dropWhile_eq_self_of_headIs h1, dropEndWhile_eq_self h2]

theorem collapseSpacesAux_ok (l : List Char) :
    spacesOk (collapseSpacesAux false l) = true ∧
    spacesOk (collapseSpacesAux true l) = true ∧
    headIs isJsSpace (collapseSpacesAux true l) = false := by
  induction l with
  | nil => exact ⟨rfl, rfl, rfl⟩
  | cons c rest ih =>
    obtain ⟨ihB, ihA, ihH⟩ := ih
    by_cases h : isJsSpace c = true
    · refine ⟨?_, ?_, ?_⟩
      · show spacesOk (if isJsSpace c then ' ' :: collapseSpacesAux true rest
          else c :: collapseSpacesAux false rest) = true
        rw [if_pos h]
        simp only [spacesOk, ihA, ihH]
        decide
      · show spacesOk (if isJsSpace c then collapseSpacesAux true rest
          else c :: collapseSpacesAux false rest) = true
        rw [if_pos h]
        exact ihA
      · show headIs isJsSpace (if isJsSpace c then collapseSpacesAux true rest
          else c :: collapseSpacesAux false rest) = false
        rw [if_pos h]
        exact ihH
    · have hc : isJsSpace c = false := by
        cases hx : isJsSpace c
        · rfl
        · exact absurd hx h
      refine ⟨?_, ?_, ?_⟩
      · show spacesOk (if isJsSpace c then ' ' :: collapseSpacesAux true rest
          else c :: collapseSpacesAux false rest) = true
        rw [if_neg h]
        simp only [spacesOk, ihB, hc]
        simp
      · show spacesOk (if isJsSpace c then collapseSpacesAux true rest
          else c :: collapseSpacesAux false rest) = true
        rw [if_neg h]
        simp only [spacesOk, ihB, hc]
        simp
      · show headIs isJsSpace (if isJsSpace c then collapseSpacesAux true rest
          else c :: collapseSpacesAux false rest) = false
        rw [if_neg h]
        exact hc

theorem spacesOk_cons {c : Char} {rest : List Char} :
    spacesOk (c :: rest) =
      ((!(isJsSpace c) || (c == ' ' && !(headIs isJsSpace rest))) &&
        spacesOk rest) := rfl

theorem spacesOk_suffix : ∀ {l₁ l₂ : List Char},
    spacesOk (l₁ ++ l₂) = true → spacesOk l₂ = true := by
  intro l₁
  induction l₁ with
  | nil => intro l₂ h; exact h
  | cons c rest ih =>
    intro l₂ h
    rw [List.cons_append, spacesOk_cons] at h
    exact ih (Bool.and_eq_true_iff.mp h).2

theorem spacesOk_append_left : ∀ {l₁ l₂ : List Char},
    spacesOk (l₁ ++ l₂) = true → spacesOk l₁ = true := by
  intro l₁
  induction l₁ with
  | nil => intro l₂ _; rfl
  | cons c rest ih =>
    intro l₂ h
    rw [List.cons_append, spacesOk_cons] at h
    obtain ⟨h1, h2⟩ := Bool.and_eq_true_iff.mp h
    rw [spacesOk_cons]
    refine Bool.and_eq_true_iff.mpr ⟨?_, ih h2⟩
    cases hrest : rest with
    | nil =>
      rcases Bool.or_eq_true_iff.mp h1 with h3 | h3
      · exact Bool.or_eq_true_iff.mpr (Or.inl h3)
      · refine Bool.or_eq_true_iff.mpr (Or.inr ?_)
        have h4 := (Bool.and_eq_true_iff.mp h3).1
        show (c == ' ' && !(headIs isJsSpace [])) = true
        rw [h4]
        rfl
    | cons d rest' =>
      subst hrest
      exact h1

theorem spacesOk_of_suffix {l₁ l₂ : List Char} (h : l₁ <:+ l₂)
    (hs : spacesOk l₂ = true) : spacesOk l₁ = true := by
  obtain ⟨t, ht⟩ := h
  rw [← ht] at hs
  exact spacesOk_suffix hs

theorem spacesOk_of_prefixOf {l₁ l₂ : List Char} (h : l₁ <+: l₂)
    (hs : spacesOk l₂ = true) : spacesOk l₁ = true := by
  obtain ⟨t, ht⟩ := h
  rw [← ht] at hs
  exact spacesOk_append_left hs

theorem collapseSpacesAux_fix : ∀ l : List Char, spacesOk l = true →
    collapseSpacesAux false l = l ∧
    (headIs isJsSpace l = false → collapseSpacesAux true l = l) := by
  intro l
  induction l with
  | nil => intro _; exact ⟨rfl, fun _ => rfl⟩
  | cons c rest ih =>
    intro h
    rw [spacesOk_cons] at h
    obtain ⟨h1, h2⟩ := Bool.and_eq_true_iff.mp h
    obtain ⟨ihB, ihA⟩ := ih h2
    by_cases hc : isJsSpace c = true
    · have h3 : (c == ' ' && !(headIs isJsSpace rest)) = true := by
        rcases Bool.or_eq_true_iff.mp h1 with h4 | h4
        · rw [hc] at h4; cases h4
        · exact h4
      obtain ⟨hceq, hrest⟩ := Bool.and_eq_true_iff.mp h3
      have hrest' : headIs isJsSpace rest = false := by
        cases hx : headIs isJsSpace rest
        · rfl
        · rw [hx] at hrest; cases hrest
      constructor
      · show (if isJsSpace c then ' ' :: collapseSpacesAux true rest
          else c :: collapseSpacesAux false rest) = c :: rest
        rw [if_pos hc, ihA hrest', eq_of_beq hceq]
      · intro hh
        rw [show headIs isJsSpace (c :: rest) = isJsSpace c from rfl, hc] at hh
        cases hh
    · have hcf : isJsSpace c = false := by
        cases hx : isJsSpace c
        · rfl
        · exact absurd hx hc
      constructor
      · show (if isJsSpace c then ' ' :: collapseSpacesAux true rest
          else c :: collapseSpacesAux false rest) = c :: rest
        rw [if_neg hc, ihB]
      · intro _
        show (if isJsSpace c then collapseSpacesAux true rest
          else c :: collapseSpacesAux false rest) = c :: rest
        rw [if_neg hc, ihB]

theorem collapseSpacesAux_all_allowed : ∀ (l : List Char) (flag : Bool),
    l.all isAllowedNameChar = true →
    (collapseSpacesAux flag l).all isAllowedNameChar = true := by
  intro l
  induction l with
  | nil => intro flag _; cases flag <;> rfl
  | cons c rest ih =>
    intro flag h
    rw [List.all_cons, Bool.and_eq_true] at h
    obtain ⟨h1, h2⟩ := h
    cases flag
    · show ((if isJsSpace c then ' ' :: collapseSpacesAux true rest
        else c :: collapseSpacesAux false rest).all isAllowedNameChar) = true
      by_cases hc : isJsSpace c = true
      · rw [if_pos hc, List.all_cons]
        exact Bool.and_eq_true_iff.mpr ⟨by decide, ih true h2⟩
      · rw [if_neg hc, List.all_cons]
        exact Bool.and_eq_true_iff.mpr ⟨h1, ih false h2⟩
    · show ((if isJsSpace c then collapseSpacesAux true rest
        else c :: collapseSpacesAux false rest).all isAllowedNameChar) = true
      by_cases hc : isJsSpace c = true
      · rw [if_pos hc]
        exact ih true h2
      · rw [if_neg hc, List.all_cons]
        exact Bool.and_eq_true_iff.mpr ⟨h1, ih false h2⟩

theorem cleanupNameL_props (l : List Char) :
    (cleanupNameL l).all isAllowedNameChar = true ∧
    spacesOk (cleanupNameL l) = true ∧
    headIs isJsSpace (cleanupNameL l) = false ∧
    headIs isJsSpace (cleanupNameL l).reverse = false := by
  have h2all : (collapseSpaces ((trimL l).filter isAllowedNameChar)).all
      isAllowedNameChar = true :=
    collapseSpacesAux_all_allowed _ false (filter_all _ _)
  have h2sp : spacesOk (collapseSpaces ((trimL l).filter isAllowedNameChar)) =
      true := (collapseSpacesAux_ok _).1
  have h3all : (stripEdgeSlashes
      (collapseSpaces ((trimL l).filter isAllowedNameChar))).all
      isAllowedNameChar = true :=
    all_of_sublist (stripEdgeSlashes_sublist _) h2all
  have h3sp : spacesOk (stripEdgeSlashes
      (collapseSpaces ((trimL l).filter isAllowedNameChar))) = true :=
    spacesOk_of_prefixOf (dropEndWhile_prefixOf _ _)
      (spacesOk_of_suffix (List.dropWhile_suffix _) h2sp)
  refine ⟨?_, ?_, trimL_headIs _, trimL_revHeadIs _⟩
  · exact all_of_sublist (trimL_sublist _) h3all
  · exact spacesOk_of_prefixOf (dropEndWhile_prefixOf _ _)
      (spacesOk_of_suffix (List.dropWhile_suffix _) h3sp)

theorem cleanupNameL_fix {o : List Char}
    (hall : o.all isAllowedNameChar = true)
    (hsp : spacesOk o = true)
    (hh : headIs isJsSpace o = false)
    (hhr : headIs isJsSpace o.reverse = false)
    (hs : headIs (· == '/') o = false)
    (hsr : headIs (· == '/') o.reverse = false) :
    cleanupNameL o = o := by
  unfold cleanupNameL
  rw [trimL_eq_self hh hhr,
    List.filter_eq_self.mpr (by simpa [List.all_eq_true] using hall),
    show collapseSpaces o = o from (collapseSpacesAux_fix o hsp).1,
    stripEdgeSlashes_eq_self hs hsr,
    trimL_eq_self hh hhr]

/-- C8 counterexample: `cleanupName` is not idempotent.  On `"/ /a"`
the slash-stripping pass removes only the leading slash run and the
final trim then exposes a new leading slash: `cleanupName "/ /a" =
"/a"`, while a second application yields `"a"`. -/
theorem c8_counterexample :
    cleanupName "/ /a" = "/a" ∧
    cleanupName (cleanupName "/ /a") = "a" ∧
    cleanupName (cleanupName "/ /a") ≠ cleanupName "/ /a" := by
  exact ⟨by decide, by decide, by decide⟩

/-- C8 amended: name normalization is idempotent on every input whose
normalized form neither starts nor ends with a slash (trimming can
expose an edge slash, which a second pass would strip, as in the
counterexample). -/
theorem c8_idempotent_no_edge_slash (s : String)
    (h1 : headIs (· == '/') (cleanupName s).data = false)
    (h2 : headIs (· == '/') (cleanupName s).data.reverse = false) :
    cleanupName (cleanupName s) = cleanupName s := by
  obtain ⟨hall, hsp, hh, hhr⟩ := cleanupNameL_props s.data
  have hfix : cleanupNameL (cleanupNameL s.data) = cleanupNameL s.data :=
    cleanupNameL_fix hall hsp hh hhr h1 h2
  show (⟨cleanupNameL (cleanupNameL s.data)⟩ : String) = ⟨cleanupNameL s.data⟩
  rw [hfix]

/-- C8 witness: the amended idempotence applied to `"  John  Doe "`. -/
theorem c8_witness :
    headIs (· == '/') (cleanupName "  John  Doe ").data = false ∧
    headIs (· == '/') (cleanupName "  John  Doe ").data.reverse = false ∧
    cleanupName (cleanupName "  John  Doe ") = cleanupName "  John  Doe " :=
  ⟨by decide, by decide,
    c8_idempotent_no_edge_slash "  John  Doe " (by decide) (by decide)⟩

/-! ## C7: name-uniqueness post-pass -/

theorem groupedOk_cons {a : List Char} {x : List (List Char)} :
    groupedOk (a :: x) =
      (!((x.dropWhile (· == a)).contains a) && groupedOk x) := rfl

theorem groupedOk_tail {a : List Char} {x : List (List Char)}
    (h : groupedOk (a :: x) = true) : groupedOk x = true := by
  rw [groupedOk_cons] at h
  exact (Bool.and_eq_true_iff.mp h).2

theorem groupedOk_no_recur {a b : List Char} {x : List (List Char)}
    (h : groupedOk (a :: b :: x) = true) (hne : (b == a) = false) :
    ∀ y ∈ x, y ≠ a := by
  rw [groupedOk_cons] at h
  have h1 := (Bool.and_eq_true_iff.mp h).1
  rw [List.dropWhile_cons, if_neg (by simp [hne])] at h1
  intro y hy he
  subst he
  have hmem : (b :: x).contains y = true :=
    List.elem_eq_true_of_mem (List.mem_cons_of_mem b hy)
  rw [hmem] at h1
  cases h1

theorem uniqNames_eq_specRename (namesMap : List (String × Nat)) :
    ∀ (l : List (String × Contact)) (cnt k : Nat) (prevC prevS : String),
    ((cnt = 0 ∧ k = 0 ∧ prevC = "" ∧ prevS = "" ∧
        groupedOk (l.map (fun pc => jsToLowerL pc.2.name.data)) = true) ∨
     (jsToLowerL prevC.data = jsToLowerL prevS.data ∧ cnt = k ∧
        1 < (alistGet namesMap ⟨jsToLowerL prevS.data⟩).getD 0 ∧
        groupedOk (jsToLowerL prevS.data ::
          l.map (fun pc => jsToLowerL pc.2.name.data)) = true) ∨
     ((alistGet namesMap ⟨jsToLowerL prevS.data⟩).getD 0 ≤ 1 ∧
        (cnt = 0 ∨ ∀ pc ∈ l,
          1 < (alistGet namesMap ⟨jsToLowerL pc.2.name.data⟩).getD 0 →
          jsToLowerL pc.2.name.data ≠ jsToLowerL prevC.data) ∧
        groupedOk (jsToLowerL prevS.data ::
          l.map (fun pc => jsToLowerL pc.2.name.data)) = true)) →
    uniqNames true namesMap cnt prevC l = specRename namesMap k prevS l := by
  intro l
  induction l with
  | nil => intro cnt k prevC prevS _; rfl
  | cons pc rest ih =>
    obtain ⟨p, c⟩ := pc
    intro cnt k prevC prevS hinv
    by_cases hcount : 1 < (alistGet namesMap
        (⟨jsToLowerL c.name.data⟩ : String)).getD 0
    · simp only [uniqNames, specRename]
      rw [if_pos ⟨trivial, hcount⟩, if_pos hcount]
      have hk : (if jsToLowerL c.name.data = jsToLowerL prevC.data then
            cnt + 1 else 1) =
          (if jsToLowerL c.name.data = jsToLowerL prevS.data then
            k + 1 else 1) := by
        rcases hinv with ⟨hc0, hk0, hpc, hps, _⟩ | ⟨hlow, hck, _, _⟩ |
            ⟨hle, hmid, _⟩
        · subst hc0; subst hk0; subst hpc; subst hps; rfl
        · rw [hlow, hck]
        · have hne : jsToLowerL c.name.data ≠ jsToLowerL prevS.data := by
            intro he
            rw [he] at hcount
            omega
          rw [if_neg hne]
          rcases hmid with hc0 | hall
          · subst hc0
            by_cases hm : jsToLowerL c.name.data = jsToLowerL prevC.data
            · rw [if_pos hm]
            · rw [if_neg hm]
          · rw [if_neg (hall (p, c) (List.mem_cons_self _ _) hcount)]
      rw [hk]
      congr 1
      · -- continuation equality via ih, invariant branch B
        apply ih
        refine Or.inr (Or.inl ⟨?_, rfl, ?_, ?_⟩)
        · by_cases hm : jsToLowerL c.name.data = jsToLowerL prevC.data
          · rw [if_pos hm]
            exact hm.symm
          · rw [if_neg hm]
        · exact hcount
        · rcases hinv with ⟨_, _, _, _, hg⟩ | ⟨_, _, _, hg⟩ | ⟨_, _, hg⟩
          · exact hg
          · exact groupedOk_tail hg
          · exact groupedOk_tail hg
    · simp only [uniqNames, specRename]
      rw [if_neg (fun hh => hcount hh.2), if_neg hcount]
      congr 1
      apply ih
      refine Or.inr (Or.inr ⟨Nat.le_of_not_lt hcount, ?_, ?_⟩)
      · rcases hinv with ⟨hc0, _, _, _, _⟩ | ⟨hlow, _, hgt, hg⟩ |
            ⟨_, hmid, _⟩
        · exact Or.inl hc0
        · refine Or.inr ?_
          have hne : (jsToLowerL c.name.data == jsToLowerL prevS.data) =
              false := by
            apply beq_eq_false_iff_ne.mpr
            intro he
            rw [he] at hcount
            exact hcount hgt
          have hnr := groupedOk_no_recur hg hne
          intro pc' hpc' _ he
          exact hnr (jsToLowerL pc'.2.name.data)
            (List.mem_map_of_mem _ hpc') (by rw [he, hlow])
        · rcases hmid with hc0 | hall
          · exact Or.inl hc0
          · exact Or.inr (fun pc' hpc' hgt' =>
              hall pc' (List.mem_cons_of_mem _ hpc') hgt')
      · rcases hinv with ⟨_, _, _, _, hg⟩ | ⟨_, _, _, hg⟩ | ⟨_, _, hg⟩
        · exact hg
        · exact groupedOk_tail hg
        · exact groupedOk_tail hg

theorem uniqNames_false (namesMap : List (String × Nat)) :
    ∀ (l : List (String × Contact)) (cnt : Nat) (prev : String),
    uniqNames false namesMap cnt prev l = l := by
  intro l
  induction l with
  | nil => intro cnt prev; rfl
  | cons pc rest ih =>
    obtain ⟨p, c⟩ := pc
    intro cnt prev
    simp only [uniqNames]
    rw [if_neg (fun hh => absurd hh.1 (by decide))]
    rw [ih]

/-- C7 confirmed: on any name-sorted missing list (equal lowercased
names adjacent, `groupedOk`), the code's uniqueness pass coincides with
the claim's rename rule `specRename` (k restarts at 1 on a new name and
increments while the lowercased name matches the immediately preceding
entry; only names with total count above one are renamed); with the
policy disabled the list is unchanged; and the sorted names
`["Amit","Amit","Amit","Zoe"]` with counts `amit ↦ 3, zoe ↦ 1` become
`["Amit (1)","Amit (2)","Amit (3)","Zoe"]`. -/
theorem c7_uniqueness_pass :
    (∀ (namesMap : List (String × Nat)) (l : List (String × Contact)),
      groupedOk (l.map (fun pc => jsToLowerL pc.2.name.data)) = true →
      uniqNames true namesMap 0 "" l = specRename namesMap 0 "" l) ∧
    (∀ (namesMap : List (String × Nat)) (l : List (String × Contact))
        (cnt : Nat) (prev : String),
      uniqNames false namesMap cnt prev l = l) ∧
    ((uniqNames true [("amit", 3), ("zoe", 1)] 0 ""
        [("1", ⟨"1", "Amit"⟩), ("2", ⟨"2", "Amit"⟩), ("3", ⟨"3", "Amit"⟩),
         ("4", ⟨"4", "Zoe"⟩)]).map (fun pc => pc.2.name) =
      ["Amit (1)", "Amit (2)", "Amit (3)", "Zoe"]) := by
  refine ⟨?_, ?_, by decide⟩
  · intro namesMap l hg
    exact uniqNames_eq_specRename namesMap l 0 0 "" ""
      (Or.inl ⟨rfl, rfl, rfl, rfl, hg⟩)
  · intro namesMap l cnt prev
    exact uniqNames_false namesMap l cnt prev

/-- C7 witness: the correspondence applied to the concrete Amit/Zoe
list. -/
theorem c7_witness :
    groupedOk (([("1", (⟨"1", "Amit"⟩ : Contact)), ("2", ⟨"2", "Amit"⟩),
        ("4", ⟨"4", "Zoe"⟩)]).map
      (fun pc => jsToLowerL pc.2.name.data)) = true ∧
    uniqNames true [("amit", 2), ("zoe", 1)] 0 ""
        [("1", ⟨"1", "Amit"⟩), ("2", ⟨"2", "Amit"⟩), ("4", ⟨"4", "Zoe"⟩)] =
      specRename [("amit", 2), ("zoe", 1)] 0 ""
        [("1", ⟨"1", "Amit"⟩), ("2", ⟨"2", "Amit"⟩), ("4", ⟨"4", "Zoe"⟩)] :=
  ⟨by decide,
    c7_uniqueness_pass.1 [("amit", 2), ("zoe", 1)]
      [("1", ⟨"1", "Amit"⟩), ("2", ⟨"2", "Amit"⟩), ("4", ⟨"4", "Zoe"⟩)]
      (by decide)⟩

/-! ## C9: read-only stores after ingestion -/

theorem alistGet_mem {α : Type} :
    ∀ {m : List (String × α)} {k : String} {v : α},
    alistGet m k = some v → (k, v) ∈ m := by
  intro m
  induction m with
  | nil => intro k v h; cases h
  | cons kv rest ih =>
    obtain ⟨k0, v0⟩ := kv
    intro k v h
    unfold alistGet at h
    by_cases hk : k0 = k
    · rw [if_pos hk] at h
      cases h
      subst hk
      exact List.mem_cons_self _ _
    · rw [if_neg hk] at h
      exact List.mem_cons_of_mem _ (ih h)

theorem keys_nodup_unique {α : Type} :
    ∀ {m : List (String × α)}, (m.map Prod.fst).Nodup →
    ∀ {k : String} {v v' : α}, (k, v) ∈ m → (k, v') ∈ m → v = v' := by
  intro m
  induction m with
  | nil => intro _ k v v' h; cases h
  | cons kv rest ih =>
    obtain ⟨k0, v0⟩ := kv
    intro hnd k v v' h1 h2
    rw [List.map_cons, List.nodup_cons] at hnd
    obtain ⟨hk0, hrest⟩ := hnd
    rcases List.mem_cons.mp h1 with e1 | m1 <;>
      rcases List.mem_cons.mp h2 with e2 | m2
    · rw [Prod.mk.injEq] at e1 e2
      rw [e1.2, e2.2]
    · exfalso
      apply hk0
      rw [Prod.mk.injEq] at e1
      show k0 ∈ List.map Prod.fst rest
      rw [← e1.1]
      exact List.mem_map_of_mem Prod.fst m2
    · exfalso
      apply hk0
      rw [Prod.mk.injEq] at e2
      show k0 ∈ List.map Prod.fst rest
      rw [← e2.1]
      exact List.mem_map_of_mem Prod.fst m1
    · exact ih hrest m1 m2

theorem uniqNames_mem (flag : Bool) (namesMap : List (String × Nat)) :
    ∀ (l : List (String × Contact)) (cnt : Nat) (prev : String)
      (pc' : String × Contact),
    pc' ∈ uniqNames flag namesMap cnt prev l →
    ∃ pc ∈ l, pc'.1 = pc.1 ∧ pc'.2.phone = pc.2.phone := by
  intro l
  induction l with
  | nil => intro cnt prev pc' h; cases h
  | cons pc0 rest ih =>
    obtain ⟨p, c⟩ := pc0
    intro cnt prev pc' h
    simp only [uniqNames] at h
    split at h
    · rcases List.mem_cons.mp h with e | m
      · exact ⟨(p, c), List.mem_cons_self _ _, by rw [e], by rw [e]⟩
      · obtain ⟨pc, hpc, h1, h2⟩ := ih _ _ _ m
        exact ⟨pc, List.mem_cons_of_mem _ hpc, h1, h2⟩
    · rcases List.mem_cons.mp h with e | m
      · exact ⟨(p, c), List.mem_cons_self _ _, by rw [e], by rw [e]⟩
      · obtain ⟨pc, hpc, h1, h2⟩ := ih _ _ _ m
        exact ⟨pc, List.mem_cons_of_mem _ hpc, h1, h2⟩

theorem applyRenames_fst (ren : List (String × Contact)) :
    ∀ store : List (String × Contact),
    (applyRenames store ren).map Prod.fst = store.map Prod.fst := by
  intro store
  induction store with
  | nil => rfl
  | cons pc rest ih =>
    simp only [applyRenames, List.map_cons] at ih ⊢
    cases h : alistGet ren pc.1 <;> simp [h, ih]

/-- C9 counterexample: the report phase mutates a stored identity.  With
an empty master and two comparison entries both named `"Amit"`, the
missing pass counts `amit ↦ 2`, and the uniqueness pass renames the
first stored contact in place to `"Amit (1)"`, so the comparison store
after the phase differs from the store ingestion produced. -/
theorem c9_counterexample :
    alistGet (applyRenames
        [("9000000001", ⟨"9000000001", "Amit"⟩),
         ("9000000002", ⟨"9000000002", "Amit"⟩)]
        (uniqNames true
          (computeMissing []
            [("9000000001", ⟨"9000000001", "Amit"⟩),
             ("9000000002", ⟨"9000000002", "Amit"⟩)]).2 0 ""
          (computeMissing []
            [("9000000001", ⟨"9000000001", "Amit"⟩),
             ("9000000002", ⟨"9000000002", "Amit"⟩)]).1))
      "9000000001" ≠
    alistGet [("9000000001", (⟨"9000000001", "Amit"⟩ : Contact)),
         ("9000000002", ⟨"9000000002", "Amit"⟩)] "9000000001" := by
  decide

/-- C9 amended: the report phase preserves the comparison store's keys
and their order, and every final entry keeps the phone of a store entry
with the same key; with the uniqueness policy disabled the store is
completely unchanged.  Only the name fields of missing duplicated-name
contacts are rewritten in place (see the counterexample); the per-store
duplicate-frequency maps are not touched after ingestion. -/
theorem c9_report_frame :
    (∀ (flag : Bool) (namesMap : List (String × Nat))
        (compare sorted : List (String × Contact)),
      (applyRenames compare (uniqNames flag namesMap 0 "" sorted)).map
          Prod.fst = compare.map Prod.fst) ∧
    (∀ (flag : Bool) (namesMap : List (String × Nat))
        (compare sorted : List (String × Contact)),
      (∀ pr ∈ sorted, pr ∈ compare) →
      ∀ pc' ∈ applyRenames compare (uniqNames flag namesMap 0 "" sorted),
        ∃ q ∈ compare, pc'.1 = q.1 ∧ pc'.2.phone = q.2.phone) ∧
    (∀ (namesMap : List (String × Nat))
        (compare sorted : List (String × Contact)),
      (∀ pr ∈ sorted, pr ∈ compare) →
      (compare.map Prod.fst).Nodup →
      applyRenames compare (uniqNames false namesMap 0 "" sorted) =
        compare) := by
  refine ⟨fun flag namesMap compare sorted =>
    applyRenames_fst _ compare, ?_, ?_⟩
  · intro flag namesMap compare sorted h1 pc' hmem
    simp only [applyRenames] at hmem
    obtain ⟨pc, hpc, hf⟩ := List.mem_map.mp hmem
    cases h : alistGet (uniqNames flag namesMap 0 "" sorted) pc.1 with
    | none =>
      rw [h] at hf
      exact ⟨pc, hpc, by rw [← hf], by rw [← hf]⟩
    | some c' =>
      rw [h] at hf
      obtain ⟨ps, hps, hfst, hph⟩ :=
        uniqNames_mem flag namesMap sorted 0 "" (pc.1, c') (alistGet_mem h)
      refine ⟨ps, h1 ps hps, ?_, ?_⟩
      · rw [← hf]; exact hfst
      · rw [← hf]; exact hph
  · intro namesMap compare sorted h1 hnd
    rw [uniqNames_false]
    have hfix : ∀ pc ∈ compare,
        (match alistGet sorted pc.1 with
          | some c => (pc.1, c)
          | none => pc) = pc := by
      intro pc hpc
      cases h : alistGet sorted pc.1 with
      | none => rfl
      | some v' =>
        have hv : v' = pc.2 := by
          have hm1 : (pc.1, v') ∈ compare := h1 _ (alistGet_mem h)
          have hm2 : (pc.1, pc.2) ∈ compare := by
            rw [show ((pc.1, pc.2) : String × Contact) = pc from rfl]
            exact hpc
          exact keys_nodup_unique hnd hm1 hm2
        rw [hv]
    calc applyRenames compare sorted =
        compare.map (fun pc => pc) := List.map_congr_left hfix
      _ = compare := List.map_id' compare

/-- C9 witness: the frame theorem applied to a concrete store and
missing list. -/
theorem c9_witness :
    (∀ pr ∈ ([("9000000001", (⟨"9000000001", "Amit"⟩ : Contact)),
        ("9000000002", ⟨"9000000002", "Amit"⟩)] :
        List (String × Contact)), pr ∈
      ([("9000000001", (⟨"9000000001", "Amit"⟩ : Contact)),
        ("9000000002", ⟨"9000000002", "Amit"⟩)] :
        List (String × Contact))) ∧
    (∀ pc' ∈ applyRenames
        [("9000000001", ⟨"9000000001", "Amit"⟩),
         ("9000000002", ⟨"9000000002", "Amit"⟩)]
        (uniqNames true [("amit", 2)] 0 ""
          [("9000000001", ⟨"9000000001", "Amit"⟩),
           ("9000000002", ⟨"9000000002", "Amit"⟩)]),
      ∃ q ∈ ([("9000000001", (⟨"9000000001", "Amit"⟩ : Contact)),
          ("9000000002", ⟨"9000000002", "Amit"⟩)] :
          List (String × Contact)),
        pc'.1 = q.1 ∧ pc'.2.phone = q.2.phone) ∧
    applyRenames
        [("9000000001", ⟨"9000000001", "Amit"⟩),
         ("9000000002", ⟨"9000000002", "Amit"⟩)]
        (uniqNames false [("amit", 2)] 0 ""
          [("9000000001", ⟨"9000000001", "Amit"⟩),
           ("9000000002", ⟨"9000000002", "Amit"⟩)]) =
      [("9000000001", ⟨"9000000001", "Amit"⟩),
       ("9000000002", ⟨"9000000002", "Amit"⟩)] :=
  ⟨fun pr h => h,
    c9_report_frame.2.1 true [("amit", 2)] _ _ (fun pr h => h),
    c9_report_frame.2.2 [("amit", 2)] _ _ (fun pr h => h) (by decide)⟩

/-- C6 witness: the unconditional increment applied to a concrete
insertion on empty stores. -/
theorem c6_witness :
    ((⟨"9123456789", "Bob"⟩ : Contact).phone = "9123456789") ∧
    alistGet (addToCompareContacts [] [] "9123456789"
        ⟨"9123456789", "Bob"⟩).2 ⟨jsToLowerL ("9123456789" : String).data⟩ =
      some ((alistGet ([] : List (String × Nat))
        ⟨jsToLowerL ("9123456789" : String).data⟩).getD 0 + 1) :=
  ⟨rfl, c6_duplicate_frequency.1 [] [] "9123456789" ⟨"9123456789", "Bob"⟩ rfl⟩
